import Mathlib

/-!
Verification development for the okapi OpenAPI document builder and merger
(crates `okapi` and `rocket-okapi`).

The only source file available is `rocket-okapi/src/lib.rs`, which contains the
`mount_endpoints_and_merged_docs!` macro (base-path validation, mounting, the
call into `okapi::merge::marge_spec_list`, and panic-based error surfacing) and
the `openapi_get_routes_spec!` / `openapi_get_spec!` macros.  The Schema
Registry, the Generator, the Operation Collector and the Document Merger live
in parts of the repository that are not available, so they are modelled from
the specification (each such definition says so in its doc comment).
-/

/-- HTTP methods, the fixed enumerated set of the spec's data model
(`OperationInfo.method` in `rocket-okapi/src/lib.rs`). -/
inductive Method where
  | get | post | put | delete | patch | options | head
deriving DecidableEq, Repr

/-- Modelled from the spec: `SchemaDefinition` is the structural description of
a type: primitive kind, object (ordered list of named, optionally-required
fields, encoded as a cons-chain), array, enum, or reference to another
schema name. -/
inductive SchemaDefinition where
  | primitive (kind : String)
  | reference (name : String)
  | array (elem : SchemaDefinition)
  | enum (variants : List String)
  | objectNil
  | objectCons (fieldName : String) (required : Bool)
      (fieldType : SchemaDefinition) (rest : SchemaDefinition)
deriving DecidableEq, Repr

/-- Modelled from the spec: the error taxonomy of §7 (`SchemaConflict`,
`DuplicateOperation`, `InvalidBasePath`); the crate's `error` module is not
among the available sources. -/
inductive BuildError where
  | schemaConflict (name : String)
  | duplicateOperation (path : String) (method : Method)
  | invalidBasePath (value : String)
deriving DecidableEq, Repr

/-- Modelled from the spec: the Schema Registry is a mapping from schema name
to structural definition with unique keys; represented as an association list
in insertion order. -/
abbrev Registry := List (String × SchemaDefinition)

instance exceptDecEq {ε α : Type} [DecidableEq ε] [DecidableEq α] :
    DecidableEq (Except ε α) := fun x y =>
  match x, y with
  | .ok a, .ok b =>
    if h : a = b then .isTrue (by rw [h]) else
      .isFalse (by intro hh; cases hh; exact h rfl)
  | .error a, .error b =>
    if h : a = b then .isTrue (by rw [h]) else
      .isFalse (by intro hh; cases hh; exact h rfl)
  | .ok _, .error _ => .isFalse (by intro hh; cases hh)
  | .error _, .ok _ => .isFalse (by intro hh; cases hh)

/-- First-match lookup in a registry. -/
def lookupSchema : Registry → String → Option SchemaDefinition
  | [], _ => none
  | (m, d) :: rest, n => if m = n then some d else lookupSchema rest n

/-- Modelled from the spec: the Schema Registry contract of §4.1.
`register(name, definition)`: insert if absent; succeed silently on an
identical re-registration; fail with `SchemaConflict{name}` on a structurally
different definition under the same name. -/
def register (reg : Registry) (name : String) (d : SchemaDefinition) :
    Except BuildError Registry :=
  match lookupSchema reg name with
  | none => .ok (reg ++ [(name, d)])
  | some d' => if d' = d then .ok reg else .error (.schemaConflict name)

theorem lookupSchema_append_left {reg : Registry} {n : String}
    {d : SchemaDefinition} (h : lookupSchema reg n = some d) (rest : Registry) :
    lookupSchema (reg ++ rest) n = some d := by
  induction reg with
  | nil => simp [lookupSchema] at h
  | cons p t ih =>
    obtain ⟨m, e⟩ := p
    by_cases hm : m = n
    · simp [lookupSchema, hm] at h ⊢; exact h
    · simp [lookupSchema, hm] at h ⊢; exact ih h

theorem lookupSchema_append_none {reg : Registry} {n : String}
    (h : lookupSchema reg n = none) (rest : Registry) :
    lookupSchema (reg ++ rest) n = lookupSchema rest n := by
  induction reg with
  | nil => simp
  | cons p t ih =>
    obtain ⟨m, e⟩ := p
    by_cases hm : m = n
    · simp [lookupSchema, hm] at h
    · simp [lookupSchema, hm] at h ⊢; exact ih h

/-- A successful `register` leaves `name` bound to the registered definition. -/
theorem register_lookup_self {reg reg' : Registry} {n : String}
    {d : SchemaDefinition} (h : register reg n d = .ok reg') :
    lookupSchema reg' n = some d := by
  unfold register at h
  cases hl : lookupSchema reg n with
  | none =>
    rw [hl] at h
    cases h
    rw [lookupSchema_append_none hl]
    simp [lookupSchema]
  | some d' =>
    rw [hl] at h
    by_cases hd : d' = d
    · simp [hd] at h; cases h; rw [hl, hd]
    · simp [hd] at h

/-- `register` never disturbs an existing binding it succeeds over. -/
theorem register_lookup_mono {reg reg' : Registry} {m n : String}
    {d e : SchemaDefinition} (h : register reg m e = .ok reg')
    (hn : lookupSchema reg n = some d) :
    lookupSchema reg' n = some d := by
  unfold register at h
  cases hl : lookupSchema reg m with
  | none =>
    rw [hl] at h
    cases h
    exact lookupSchema_append_left hn _
  | some d' =>
    rw [hl] at h
    by_cases hd : d' = e
    · simp [hd] at h; cases h; exact hn
    · simp [hd] at h

/-- C7.  For every (name, definition) pair and every registry state in which
registration succeeds, registering the same pair a second time returns success
and leaves the registry in exactly the state the first registration produced
(idempotent registration, §4.1 / §8 of the spec). -/
theorem register_idempotent (reg reg' : Registry) (n : String)
    (d : SchemaDefinition) (h : register reg n d = .ok reg') :
    register reg' n d = .ok reg' := by
  have hs := register_lookup_self h
  unfold register
  rw [hs]
  simp

/-- Witness for C7 at a concrete registry. -/
theorem register_idempotent_witness :
    register [] "A" (.primitive "string") =
      .ok [("A", SchemaDefinition.primitive "string")] ∧
    register [("A", SchemaDefinition.primitive "string")] "A" (.primitive "string") =
      .ok [("A", SchemaDefinition.primitive "string")] :=
  ⟨by decide,
   register_idempotent [] [("A", SchemaDefinition.primitive "string")] "A"
     (.primitive "string") (by decide)⟩

/-- C6.  Registering `(name, defA)` and then `(name, defB)` with structurally
different `defA ≠ defB` fails with `SchemaConflict{name}`, and the first
registration is never silently overwritten: the registry still maps `name` to
`defA` (§4.1 / §8 of the spec). -/
theorem register_conflict (reg reg' : Registry) (n : String)
    (dA dB : SchemaDefinition) (hne : dA ≠ dB)
    (h : register reg n dA = .ok reg') :
    register reg' n dB = .error (.schemaConflict n) ∧
    lookupSchema reg' n = some dA := by
  have hs := register_lookup_self h
  refine ⟨?_, hs⟩
  unfold register
  rw [hs]
  simp [hne]

/-- Witness for C6 at a concrete registry and two distinct definitions. -/
theorem register_conflict_witness :
    register [("A", SchemaDefinition.primitive "string")] "A" (.primitive "integer") =
      .error (.schemaConflict "A") ∧
    lookupSchema [("A", SchemaDefinition.primitive "string")] "A" =
      some (.primitive "string") :=
  register_conflict [] [("A", SchemaDefinition.primitive "string")] "A"
    (.primitive "string") (.primitive "integer") (by decide) (by decide)

/-- Drop every trailing `'/'` of a character list. -/
def dropTrailingSlashes (l : List Char) : List Char :=
  (l.reverse.dropWhile (fun c => c = '/')).reverse

/-- Modelled from the spec: §4.4's separator normalization for path
concatenation — trailing separators of the mount point are dropped and the
endpoint path keeps (or receives) its leading separator, so no double
separator appears and no suffix is lost. -/
def joinChars (pre p : List Char) : List Char :=
  dropTrailingSlashes pre ++ (if p.head? = some '/' then p else '/' :: p)

/-- Modelled from the spec: re-keying concatenation `mount point ++ path` with
separator normalization (§4.4). -/
def joinPath (pre p : String) : String :=
  ⟨joinChars pre.data p.data⟩

/-- `true` iff the character list never holds two adjacent `'/'`. -/
def noDoubleSep : List Char → Bool
  | [] => true
  | [_] => true
  | a :: b :: rest =>
    if a = '/' ∧ b = '/' then false else noDoubleSep (b :: rest)

theorem noDoubleSep_of_append : ∀ {a b : List Char},
    noDoubleSep (a ++ b) = true → noDoubleSep a = true
  | [], _, _ => rfl
  | [x], b, h => rfl
  | x :: y :: rest, b, h => by
    simp only [List.cons_append, noDoubleSep] at h ⊢
    by_cases hxy : x = '/' ∧ y = '/'
    · simp [hxy] at h
    · simp only [if_neg hxy] at h ⊢
      exact noDoubleSep_of_append (a := y :: rest) h

theorem dropWhile_head_not {p : Char → Bool} : ∀ {l : List Char} {c : Char},
    (l.dropWhile p).head? = some c → p c = false
  | [], c, h => by simp [List.dropWhile] at h
  | x :: rest, c, h => by
    by_cases hx : p x
    · rw [List.dropWhile_cons_of_pos hx] at h
      exact dropWhile_head_not h
    · rw [List.dropWhile_cons_of_neg hx] at h
      simp at h
      rw [← h]
      simpa using hx

theorem dropWhile_isSuffix {p : Char → Bool} : ∀ (l : List Char),
    l.dropWhile p <:+ l
  | [] => List.suffix_rfl
  | x :: rest => by
    by_cases hx : p x
    · rw [List.dropWhile_cons_of_pos hx]
      exact (dropWhile_isSuffix rest).trans (List.suffix_cons x rest)
    · rw [List.dropWhile_cons_of_neg hx]

theorem dropTrailingSlashes_isPrefix (l : List Char) :
    dropTrailingSlashes l <+: l := by
  unfold dropTrailingSlashes
  have h := dropWhile_isSuffix (p := fun c => c = '/') l.reverse
  have := h.reverse
  simpa using this

theorem dropTrailingSlashes_getLast_ne {l : List Char}
    (h : (dropTrailingSlashes l).getLast? = some '/') : False := by
  unfold dropTrailingSlashes at h
  rw [List.getLast?_reverse] at h
  have := dropWhile_head_not h
  simp at this

theorem noDoubleSep_dropTrailingSlashes {l : List Char}
    (h : noDoubleSep l = true) : noDoubleSep (dropTrailingSlashes l) = true := by
  obtain ⟨t, ht⟩ := dropTrailingSlashes_isPrefix l
  rw [← ht] at h
  exact noDoubleSep_of_append h

theorem noDoubleSep_append : ∀ {a : List Char} {b : List Char},
    noDoubleSep a = true → noDoubleSep b = true →
    (a.getLast? = some '/' → False) → noDoubleSep (a ++ b) = true
  | [], b, _, hb, _ => hb
  | [x], b, _, hb, hlast => by
    cases b with
    | nil => rfl
    | cons y ys =>
      simp only [List.singleton_append, noDoubleSep]
      have hx : ¬ (x = '/' ∧ y = '/') := by
        intro ⟨h1, _⟩
        exact hlast (by simp [h1])
      rw [if_neg hx]
      exact hb
  | x :: y :: rest, b, ha, hb, hlast => by
    simp only [List.cons_append, noDoubleSep] at ha ⊢
    by_cases hxy : x = '/' ∧ y = '/'
    · simp [hxy] at ha
    · rw [if_neg hxy] at ha ⊢
      have hlast' : (y :: rest).getLast? = some '/' → False := by
        intro hh
        apply hlast
        rw [List.getLast?_cons_cons]
        exact hh
      exact noDoubleSep_append (a := y :: rest) ha hb hlast'

/-- Joining a normalized mount point onto a path introduces no double
separator. -/
theorem noDoubleSep_joinChars {pre p : List Char}
    (hpre : noDoubleSep pre = true) (hp : noDoubleSep p = true) :
    noDoubleSep (joinChars pre p) = true := by
  unfold joinChars
  apply noDoubleSep_append (noDoubleSep_dropTrailingSlashes hpre)
  · by_cases hh : p.head? = some '/'
    · rw [if_pos hh]; exact hp
    · rw [if_neg hh]
      cases p with
      | nil => rfl
      | cons c cs =>
        have hc : c ≠ '/' := fun h => hh (by simp [h])
        simpa [noDoubleSep, hc] using hp
  · exact dropTrailingSlashes_getLast_ne

/-- When the endpoint path already starts with a separator, joining is exactly
appending it to the normalized mount point: nothing of the path is lost. -/
theorem joinChars_keeps_suffix {pre p : List Char} (hp : p.head? = some '/') :
    joinChars pre p = dropTrailingSlashes pre ++ p := by
  unfold joinChars
  rw [if_pos hp]

/-- Operation body (spec §3 `OperationInfo.operation`): summary, tags, and a
response map from status code to schema reference name; parameters and bodies
are externally produced references and carry no extra structure here. -/
structure Operation where
  summary : String
  tags : List String
  responses : List (Nat × String)
deriving DecidableEq, Repr

/-- `OperationInfo` from `rocket-okapi/src/lib.rs`: path, HTTP method and the
operation body of one endpoint. -/
structure OperationInfo where
  path : String
  method : Method
  operation : Operation
deriving DecidableEq, Repr

/-- Modelled from the spec: an endpoint descriptor handed to the Operation
Collector (§4.3): the `OperationInfo` plus the Generator-produced
(name, definition) registrations its references depend on. -/
structure EndpointDescriptor where
  info : OperationInfo
  schemas : List (String × SchemaDefinition)
deriving DecidableEq, Repr

/-- One `paths` entry: a (path, method) key with its operation. -/
abbrev PathEntry := (String × Method) × Operation

/-- Modelled from the spec: a `Document` (§3) — `paths` as an association list
keyed by (path, method), the schema-registry snapshot, and the tag set in
first-occurrence order. -/
structure Document where
  paths : List PathEntry
  schemas : Registry
  tags : List String
deriving DecidableEq, Repr

/-- The empty document every build starts from. -/
def emptyDoc : Document := ⟨[], [], []⟩

/-- `true` iff `paths` already holds an operation under key `k`. -/
def containsPathKey (k : String × Method) : List PathEntry → Bool
  | [] => false
  | (k', _) :: rest => if k' = k then true else containsPathKey k rest

/-- Modelled from the spec: §4.3's `paths[path][method] = operation` insertion;
an occupied key is a `DuplicateOperation{path, method}` failure. -/
def insertPathEntry (paths : List PathEntry) (e : PathEntry) :
    Except BuildError (List PathEntry) :=
  if containsPathKey e.1 paths then .error (.duplicateOperation e.1.1 e.1.2)
  else .ok (paths ++ [e])

/-- Insert a list of path entries in order, failing on the first collision. -/
def insertPathEntries : List PathEntry → List PathEntry →
    Except BuildError (List PathEntry)
  | acc, [] => .ok acc
  | acc, e :: l =>
    match insertPathEntry acc e with
    | .ok a => insertPathEntries a l
    | .error err => .error err

/-- Register a list of (name, definition) pairs in order via the §4.1
contract, failing on the first conflict. -/
def registerAll : Registry → List (String × SchemaDefinition) →
    Except BuildError Registry
  | reg, [] => .ok reg
  | reg, (n, d) :: l =>
    match register reg n d with
    | .ok r => registerAll r l
    | .error err => .error err

/-- Add one tag if absent (tags form a set, §4.3). -/
def addTag (tags : List String) (t : String) : List String :=
  if t ∈ tags then tags else tags ++ [t]

/-- Accumulate a list of tags as a set in first-occurrence order. -/
def addTags : List String → List String → List String
  | acc, [] => acc
  | acc, t :: l => addTags (addTag acc t) l

/-- Modelled from the spec: one step of the Operation Collector (§4.3): insert
the endpoint's (path, method, operation), union its schema registrations, and
accumulate its tags. -/
def collectStep (doc : Document) (e : EndpointDescriptor) :
    Except BuildError Document :=
  match insertPathEntry doc.paths ((e.info.path, e.info.method), e.info.operation) with
  | .error err => .error err
  | .ok paths =>
    match registerAll doc.schemas e.schemas with
    | .error err => .error err
    | .ok schemas => .ok ⟨paths, schemas, addTags doc.tags e.info.operation.tags⟩

/-- Fold the Operation Collector over a descriptor list from a given
document-in-progress. -/
def collectFrom : Document → List EndpointDescriptor → Except BuildError Document
  | doc, [] => .ok doc
  | doc, e :: es =>
    match collectStep doc e with
    | .ok doc' => collectFrom doc' es
    | .error err => .error err

/-- Modelled from the spec: the Operation Collector (§4.3) — fold a list of
endpoint descriptors into one Document starting from the empty document. -/
def collectOperations (es : List EndpointDescriptor) : Except BuildError Document :=
  collectFrom emptyDoc es

/-- Re-key one path entry of a mounted document under its mount point
(§4.4). -/
def reKeyEntry (pre : String) (e : PathEntry) : PathEntry :=
  ((joinPath pre e.1.1, e.1.2), e.2)

/-- Modelled from the spec: merge one `MountEntry` (mount point + document)
into the accumulated document (§4.4): re-key and insert every path (rejecting
cross-group collisions as `DuplicateOperation` on the final re-keyed path),
register every schema via §4.1, and union the tag sets. -/
def mergeDocInto (acc : Document) (pre : String) (doc : Document) :
    Except BuildError Document :=
  match insertPathEntries acc.paths (doc.paths.map (reKeyEntry pre)) with
  | .error err => .error err
  | .ok paths =>
    match registerAll acc.schemas doc.schemas with
    | .error err => .error err
    | .ok schemas => .ok ⟨paths, schemas, addTags acc.tags doc.tags⟩

/-- Fold the Document Merger over the mount list from a given accumulator. -/
def mergeFrom : Document → List (String × Document) → Except BuildError Document
  | acc, [] => .ok acc
  | acc, (pre, doc) :: entries =>
    match mergeDocInto acc pre doc with
    | .ok acc' => mergeFrom acc' entries
    | .error err => .error err

/-- Modelled from the spec: `okapi::merge::marge_spec_list` (§4.4, called at
`rocket-okapi/src/lib.rs:166`) — combine an ordered list of
(mount point, document) pairs into one document.  As in the source call site,
it receives only the per-group mount points, not the overall base path. -/
def marge_spec_list (entries : List (String × Document)) :
    Except BuildError Document :=
  mergeFrom emptyDoc entries

/-- `true` iff the base path is exactly `"/"` or does not end in `'/'`
(the `assert!` at `rocket-okapi/src/lib.rs:158`; Rust's
`base_path.ends_with("/")` on the one-character pattern `"/"` is a check of
the last character). -/
def basePathOk (base : String) : Bool :=
  (base == "/") || !(base.data.getLast? == some '/')

/-- The panic message of the `assert!` at `rocket-okapi/src/lib.rs:158`. -/
def basePathPanicMsg : String := "`base_path` should not end with an `/`."

/-- Message text of a build error (the crate's `error` module is not among the
available sources; the text follows the §7 taxonomy names). -/
def errorMessage : BuildError → String
  | .schemaConflict n => "SchemaConflict: " ++ n
  | .duplicateOperation p _ => "DuplicateOperation: " ++ p
  | .invalidBasePath v => "InvalidBasePath: " ++ v

/-- The panic message built at `rocket-okapi/src/lib.rs:168`:
`"Could not merge OpenAPI spec: {}"` formatted with the merge error. -/
def mergePanicMsg (e : BuildError) : String :=
  "Could not merge OpenAPI spec: " ++ errorMessage e

/-- Outcome of expanding `mount_endpoints_and_merged_docs!`: the merged
document, a structured error value returned to the caller, or a process
abort (`assert!` / `panic!`). -/
inductive MountResult where
  | ok (doc : Document)
  | err (e : BuildError)
  | panicked (msg : String)
deriving DecidableEq, Repr

/-- `true` iff the outcome is a structured error value handed to the caller. -/
def MountResult.isStructuredError : MountResult → Bool
  | .err _ => true
  | _ => false

/-- Lift the merger's result the way the macro does at
`rocket-okapi/src/lib.rs:166-169`: `Ok` is kept, `Err` becomes a panic. -/
def mergeOutcome : Except BuildError Document → MountResult
  | .ok d => .ok d
  | .error e => .panicked (mergePanicMsg e)

/-- The document-building behavior of `mount_endpoints_and_merged_docs!`
(`rocket-okapi/src/lib.rs:154-179`): assert the base-path convention
(panicking on violation), collect the per-mount-point documents, and merge
them with `marge_spec_list` (panicking on a merge error).  The base path is
used only for mounting routes, never passed to the merger. -/
def mount_endpoints_and_merged_docs (basePath : String)
    (entries : List (String × Document)) : MountResult :=
  if basePathOk basePath then mergeOutcome (marge_spec_list entries)
  else .panicked basePathPanicMsg

/-- The path keys of a descriptor list, in order. -/
def entriesOf (es : List EndpointDescriptor) : List PathEntry :=
  es.map (fun e => ((e.info.path, e.info.method), e.info.operation))

/-- All schema registrations of a descriptor list, in order. -/
def schemasOf (es : List EndpointDescriptor) : List (String × SchemaDefinition) :=
  (es.map (fun e => e.schemas)).flatten

/-- All tags of a descriptor list, in order. -/
def tagsOf (es : List EndpointDescriptor) : List String :=
  (es.map (fun e => e.info.operation.tags)).flatten

theorem insertPathEntries_append (a b : List PathEntry) (acc : List PathEntry) :
    insertPathEntries acc (a ++ b) =
      (insertPathEntries acc a).bind (fun r => insertPathEntries r b) := by
  induction a generalizing acc with
  | nil => simp [insertPathEntries, Except.bind]
  | cons e l ih =>
    simp only [List.cons_append, insertPathEntries]
    cases insertPathEntry acc e with
    | ok r => exact ih r
    | error err => simp [Except.bind]

theorem insertPathEntries_ok_eq {l : List PathEntry} :
    ∀ {acc r : List PathEntry}, insertPathEntries acc l = .ok r → r = acc ++ l := by
  induction l with
  | nil => intro acc r h; cases h; simp
  | cons e t ih =>
    intro acc r h
    simp only [insertPathEntries] at h
    cases hins : insertPathEntry acc e with
    | error err => rw [hins] at h; cases h
    | ok a =>
      rw [hins] at h
      have := ih h
      unfold insertPathEntry at hins
      by_cases hc : containsPathKey e.1 acc
      · simp [hc] at hins
      · simp [hc] at hins
        subst hins
        simp [this]

theorem registerAll_append (a b : List (String × SchemaDefinition))
    (reg : Registry) :
    registerAll reg (a ++ b) =
      (registerAll reg a).bind (fun r => registerAll r b) := by
  induction a generalizing reg with
  | nil => simp [registerAll, Except.bind]
  | cons e l ih =>
    obtain ⟨n, d⟩ := e
    simp only [List.cons_append, registerAll]
    cases register reg n d with
    | ok r => exact ih r
    | error err => simp [Except.bind]

theorem registerAll_lookup_mono {l : List (String × SchemaDefinition)} :
    ∀ {reg reg' : Registry} {n : String} {d : SchemaDefinition},
    registerAll reg l = .ok reg' → lookupSchema reg n = some d →
    lookupSchema reg' n = some d := by
  induction l with
  | nil => intro reg reg' n d h hn; cases h; exact hn
  | cons e t ih =>
    intro reg reg' n d h hn
    obtain ⟨m, dm⟩ := e
    simp only [registerAll] at h
    cases hr : register reg m dm with
    | error err => rw [hr] at h; cases h
    | ok r => rw [hr] at h; exact ih h (register_lookup_mono hr hn)

theorem registerAll_lookup_of_mem {l : List (String × SchemaDefinition)} :
    ∀ {reg reg' : Registry} {n : String} {d : SchemaDefinition},
    registerAll reg l = .ok reg' → lookupSchema l n = some d →
    lookupSchema reg' n = some d := by
  induction l with
  | nil => intro reg reg' n d h hn; simp [lookupSchema] at hn
  | cons e t ih =>
    intro reg reg' n d h hn
    obtain ⟨m, dm⟩ := e
    simp only [registerAll] at h
    cases hr : register reg m dm with
    | error err => rw [hr] at h; cases h
    | ok r =>
      rw [hr] at h
      by_cases hm : m = n
      · simp [lookupSchema, hm] at hn
        subst hm hn
        exact registerAll_lookup_mono h (register_lookup_self hr)
      · simp [lookupSchema, hm] at hn
        exact ih h hn

/-- Registering an already-deduplicated registry (a successful `registerAll`
over `l` starting from `t`) into any accumulator behaves exactly like
registering `t` and then the raw list `l`. -/
theorem registerAll_assoc : ∀ (l : List (String × SchemaDefinition))
    (t u : Registry), registerAll t l = .ok u → ∀ (acc : Registry),
    registerAll acc u = (registerAll acc t).bind (fun a => registerAll a l)
  | [], t, u, h, acc => by
    cases h
    simp only [registerAll]
    cases registerAll acc t <;> simp [Except.bind]
  | (n, d) :: xs, t, u, h, acc => by
    simp only [registerAll] at h
    cases hr : register t n d with
    | error err => rw [hr] at h; cases h
    | ok t₁ =>
      rw [hr] at h
      have hstep : registerAll acc t₁ =
          (registerAll acc t).bind (fun a => register a n d) := by
        unfold register at hr
        cases hl : lookupSchema t n with
        | none =>
          rw [hl] at hr
          cases hr
          rw [registerAll_append t [(n, d)] acc]
          cases hx : registerAll acc t with
          | error err => simp [Except.bind]
          | ok a =>
            simp only [Except.bind]
            simp only [registerAll]
            cases register a n d with
            | ok r => simp [registerAll]
            | error err => rfl
        | some d' =>
          rw [hl] at hr
          by_cases hd : d' = d
          · simp only [hd, if_pos rfl] at hr
            cases hr
            cases hx : registerAll acc t with
            | error err => simp [Except.bind]
            | ok a =>
              simp only [Except.bind]
              have hla : lookupSchema a n = some d := by
                rw [← hd]
                exact registerAll_lookup_of_mem hx hl
              unfold register
              rw [hla]
              simp
          · simp only [if_neg hd] at hr
            cases hr
      rw [registerAll_assoc xs t₁ u h acc, hstep]
      cases hx : registerAll acc t with
      | error err => simp [Except.bind]
      | ok a =>
        simp only [Except.bind, registerAll]
        cases register a n d with
        | ok r => simp [Except.bind]
        | error err => simp [Except.bind]

theorem addTags_append (a b : List String) (acc : List String) :
    addTags acc (a ++ b) = addTags (addTags acc a) b := by
  induction a generalizing acc with
  | nil => simp [addTags]
  | cons t l ih => simp only [List.cons_append, addTags]; exact ih (addTag acc t)

theorem mem_addTags {x : String} : ∀ {l acc : List String},
    x ∈ addTags acc l ↔ x ∈ acc ∨ x ∈ l := by
  intro l
  induction l with
  | nil => intro acc; simp [addTags]
  | cons t ts ih =>
    intro acc
    simp only [addTags]
    rw [ih]
    unfold addTag
    by_cases ht : t ∈ acc
    · simp only [if_pos ht]
      constructor
      · rintro (h | h)
        · exact Or.inl h
        · exact Or.inr (List.mem_cons_of_mem t h)
      · rintro (h | h)
        · exact Or.inl h
        · rcases List.mem_cons.mp h with h | h
          · subst h; exact Or.inl ht
          · exact Or.inr h
    · simp only [if_neg ht]
      simp [List.mem_append, List.mem_cons]
      tauto

theorem addTags_addTag (acc t : List String) (x : String) :
    addTags acc (addTag t x) = addTag (addTags acc t) x := by
  unfold addTag
  by_cases hx : x ∈ t
  · rw [if_pos hx, if_pos (mem_addTags.mpr (Or.inr hx))]
  · rw [if_neg hx, addTags_append]
    simp [addTags, addTag]

theorem addTags_addTags (acc t l : List String) :
    addTags acc (addTags t l) = addTags (addTags acc t) l := by
  induction l generalizing t with
  | nil => simp [addTags]
  | cons x xs ih =>
    simp only [addTags]
    rw [ih (addTag t x), addTags_addTag]

/-- A successful collection fold factors into independent folds over path
entries, schema registrations and tags. -/
theorem collectFrom_ok_iff : ∀ (es : List EndpointDescriptor) (acc d : Document),
    collectFrom acc es = .ok d ↔
      (insertPathEntries acc.paths (entriesOf es) = .ok d.paths ∧
       registerAll acc.schemas (schemasOf es) = .ok d.schemas ∧
       d.tags = addTags acc.tags (tagsOf es))
  | [], acc, d => by
    obtain ⟨ap, as, atg⟩ := acc
    obtain ⟨dp, ds, dt⟩ := d
    simp only [collectFrom, entriesOf, schemasOf, tagsOf, List.map_nil,
      List.flatten_nil, insertPathEntries, registerAll, addTags]
    constructor
    · intro h
      injection h with h
      injection h with h1 h2 h3
      exact ⟨by rw [h1], by rw [h2], by rw [h3]⟩
    · rintro ⟨h1, h2, h3⟩
      injection h1 with h1
      injection h2 with h2
      rw [h1, h2, h3]
  | e :: rest, acc, d => by
    have ih := collectFrom_ok_iff rest
    simp only [collectFrom, collectStep, entriesOf, schemasOf, tagsOf,
      List.map_cons, List.flatten_cons, insertPathEntries, registerAll_append,
      addTags_append]
    cases hins :
        insertPathEntry acc.paths ((e.info.path, e.info.method), e.info.operation) with
    | error err => simp
    | ok a =>
      cases hreg : registerAll acc.schemas e.schemas with
      | error err => simp [Except.bind]
      | ok s =>
        simp only [Except.bind]
        rw [ih ⟨a, s, addTags acc.tags e.info.operation.tags⟩ d]
        simp only [entriesOf, schemasOf, tagsOf]

theorem collectFrom_append (a b : List EndpointDescriptor) (acc : Document) :
    collectFrom acc (a ++ b) =
      (collectFrom acc a).bind (fun m => collectFrom m b) := by
  induction a generalizing acc with
  | nil => simp [collectFrom, Except.bind]
  | cons e l ih =>
    simp only [List.cons_append, collectFrom]
    cases collectStep acc e with
    | ok doc' => exact ih doc'
    | error err => simp [Except.bind]

/-- Modelled from the spec: build the per-mount-group documents, in order,
pairing each with its mount point (the `openapi_list` assembled at
`rocket-okapi/src/lib.rs:159-164`, with each group's document produced by the
Operation Collector). -/
def collectGroups : List (String × List EndpointDescriptor) →
    Except BuildError (List (String × Document))
  | [] => .ok []
  | (pre, g) :: rest =>
    match collectOperations g with
    | .error err => .error err
    | .ok doc =>
      match collectGroups rest with
      | .error err => .error err
      | .ok entries => .ok ((pre, doc) :: entries)

/-- Apply a mount point to one endpoint descriptor: only its path changes. -/
def prefixEndpoint (pre : String) (e : EndpointDescriptor) : EndpointDescriptor :=
  ⟨⟨joinPath pre e.info.path, e.info.method, e.info.operation⟩, e.schemas⟩

/-- The union of all mount groups as one descriptor list, every endpoint
re-keyed under its group's mount point. -/
def flattenPrefixed (groups : List (String × List EndpointDescriptor)) :
    List EndpointDescriptor :=
  (groups.map (fun pg => pg.2.map (prefixEndpoint pg.1))).flatten

theorem entriesOf_prefixed (pre : String) (g : List EndpointDescriptor) :
    entriesOf (g.map (prefixEndpoint pre)) = (entriesOf g).map (reKeyEntry pre) := by
  simp [entriesOf, prefixEndpoint, reKeyEntry, List.map_map, Function.comp]

theorem schemasOf_prefixed (pre : String) (g : List EndpointDescriptor) :
    schemasOf (g.map (prefixEndpoint pre)) = schemasOf g := by
  simp [schemasOf, prefixEndpoint, List.map_map, Function.comp_def]

theorem tagsOf_prefixed (pre : String) (g : List EndpointDescriptor) :
    tagsOf (g.map (prefixEndpoint pre)) = tagsOf g := by
  simp [tagsOf, prefixEndpoint, List.map_map, Function.comp_def]

/-- Generalized merge/collect agreement: folding the merger over per-group
documents from any accumulator agrees with folding the collector over the
re-keyed union of the groups. -/
theorem mergeFrom_eq_collectFrom :
    ∀ (groups : List (String × List EndpointDescriptor))
      (entries : List (String × Document)) (acc d : Document),
    collectGroups groups = .ok entries → mergeFrom acc entries = .ok d →
    collectFrom acc (flattenPrefixed groups) = .ok d
  | [], entries, acc, d, hg, hm => by
    cases hg
    cases hm
    rfl
  | (pre, g) :: rest, entries, acc, d, hg, hm => by
    simp only [collectGroups] at hg
    cases hcg : collectOperations g with
    | error err => rw [hcg] at hg; cases hg
    | ok doc =>
      rw [hcg] at hg
      cases hrest : collectGroups rest with
      | error err => rw [hrest] at hg; cases hg
      | ok entries' =>
        rw [hrest] at hg
        cases hg
        simp only [mergeFrom] at hm
        cases hmd : mergeDocInto acc pre doc with
        | error err => rw [hmd] at hm; cases hm
        | ok acc₁ =>
          rw [hmd] at hm
          have hflat : flattenPrefixed ((pre, g) :: rest) =
              g.map (prefixEndpoint pre) ++ flattenPrefixed rest := by
            simp [flattenPrefixed]
          rw [hflat, collectFrom_append]
          have hstep : collectFrom acc (g.map (prefixEndpoint pre)) = .ok acc₁ := by
            have hdocparts := (collectFrom_ok_iff g emptyDoc doc).mp hcg
            obtain ⟨hdp, hds, hdt⟩ := hdocparts
            have hdp' : doc.paths = entriesOf g := by
              have := insertPathEntries_ok_eq hdp
              simpa using this
            simp only [mergeDocInto] at hmd
            cases hins : insertPathEntries acc.paths (doc.paths.map (reKeyEntry pre)) with
            | error err => rw [hins] at hmd; cases hmd
            | ok paths =>
              rw [hins] at hmd
              cases hreg : registerAll acc.schemas doc.schemas with
              | error err => rw [hreg] at hmd; cases hmd
              | ok schemas =>
                rw [hreg] at hmd
                cases hmd
                apply (collectFrom_ok_iff (g.map (prefixEndpoint pre)) acc _).mpr
                refine ⟨?_, ?_, ?_⟩
                · rw [entriesOf_prefixed, ← hdp']
                  exact hins
                · rw [schemasOf_prefixed]
                  have := registerAll_assoc (schemasOf g) [] doc.schemas
                    (by simpa [emptyDoc] using hds) acc.schemas
                  simp only [registerAll, Except.bind] at this
                  rw [← this]
                  exact hreg
                · rw [tagsOf_prefixed]
                  show addTags acc.tags doc.tags = addTags acc.tags (tagsOf g)
                  rw [hdt]
                  simp [emptyDoc]
                  rw [addTags_addTags]
                  simp [addTags]
          rw [hstep]
          simp only [Except.bind]
          exact mergeFrom_eq_collectFrom rest entries' acc₁ d hrest hm

/-- C1.  Merge-of-builds ≡ build-of-union (§4.4, §8): for every partition of
endpoints into mount groups whose per-group collections succeed, a successful
`marge_spec_list` of the per-group documents yields exactly the Document that
collecting the re-keyed union of all endpoints in one pass produces — in
particular its `paths` and `components.schemas` maps are equal entry for
entry. -/
theorem merge_of_builds_eq_build_of_union
    (groups : List (String × List EndpointDescriptor))
    (entries : List (String × Document)) (d : Document)
    (hg : collectGroups groups = .ok entries)
    (hm : marge_spec_list entries = .ok d) :
    collectOperations (flattenPrefixed groups) = .ok d :=
  mergeFrom_eq_collectFrom groups entries emptyDoc d hg hm

/-- Sample operation: a ping endpoint body. -/
def opPing : Operation := ⟨"ping", ["monitor"], [(200, "Empty")]⟩

/-- Sample operation: an echo endpoint body. -/
def opEcho : Operation := ⟨"echo", ["messages"], [(200, "EchoResponse")]⟩

/-- Sample descriptor: `GET /ping` with no schema registrations. -/
def epPing : EndpointDescriptor := ⟨⟨"/ping", .get, opPing⟩, []⟩

/-- Sample descriptor: `POST /echo` registering its response schema. -/
def epEcho : EndpointDescriptor :=
  ⟨⟨"/echo", .post, opEcho⟩,
   [("EchoResponse", .objectCons "message" true (.primitive "string") .objectNil)]⟩

/-- Sample mount groups for the merge-equivalence witness. -/
def groupsW : List (String × List EndpointDescriptor) :=
  [("/a", [epPing]), ("/b", [epPing, epEcho])]

/-- The per-group documents of `groupsW`. -/
def entriesW : List (String × Document) :=
  [("/a", ⟨[(("/ping", .get), opPing)], [], ["monitor"]⟩),
   ("/b", ⟨[(("/ping", .get), opPing), (("/echo", .post), opEcho)],
           [("EchoResponse", .objectCons "message" true (.primitive "string") .objectNil)],
           ["monitor", "messages"]⟩)]

/-- The merged document of `entriesW`. -/
def docW : Document :=
  ⟨[(("/a/ping", .get), opPing), (("/b/ping", .get), opPing),
    (("/b/echo", .post), opEcho)],
   [("EchoResponse", .objectCons "message" true (.primitive "string") .objectNil)],
   ["monitor", "messages"]⟩

/-- Witness for C1 at a concrete two-group mount list. -/
theorem merge_of_builds_eq_build_of_union_witness :
    collectOperations (flattenPrefixed groupsW) = .ok docW :=
  merge_of_builds_eq_build_of_union groupsW entriesW docW (by decide) (by decide)

/-- The (path, method) keys of a path map, in order. -/
def pathKeys (l : List PathEntry) : List (String × Method) := l.map Prod.fst

/-- All schema registrations carried by a mount list, in order. -/
def docsSchemas (entries : List (String × Document)) :
    List (String × SchemaDefinition) :=
  (entries.map (fun pd => pd.2.schemas)).flatten

/-- The final (re-keyed) path keys a mount list contributes to the merged
document, in order. -/
def finalKeys (entries : List (String × Document)) : List (String × Method) :=
  (entries.map (fun pd => pathKeys (pd.2.paths.map (reKeyEntry pd.1)))).flatten

/-- `true` iff the build outcome is a `DuplicateOperation` failure. -/
def isDuplicateOperationErr {α : Type} : Except BuildError α → Bool
  | .error (.duplicateOperation _ _) => true
  | _ => false

theorem containsPathKey_iff_mem {k : String × Method} :
    ∀ {l : List PathEntry}, containsPathKey k l = true ↔ k ∈ pathKeys l := by
  intro l
  induction l with
  | nil => simp [containsPathKey, pathKeys]
  | cons e t ih =>
    simp only [containsPathKey, pathKeys, List.map_cons, List.mem_cons]
    by_cases hk : e.1 = k
    · simp [hk]
    · simp only [if_neg hk]
      rw [ih]
      simp [pathKeys]
      intro h
      exact absurd h.symm hk

theorem insertPathEntries_ok_of_nodup :
    ∀ (l acc : List PathEntry), (pathKeys acc ++ pathKeys l).Nodup →
    insertPathEntries acc l = .ok (acc ++ l)
  | [], acc, _ => by simp [insertPathEntries]
  | e :: t, acc, h => by
    have hnotin : e.1 ∉ pathKeys acc := by
      rw [List.nodup_append] at h
      intro hmem
      exact h.2.2 hmem (by simp [pathKeys])
    have hcont : containsPathKey e.1 acc = false := by
      rw [← Bool.not_eq_true, containsPathKey_iff_mem]
      exact hnotin
    have hre : pathKeys (acc ++ [e]) ++ pathKeys t = pathKeys acc ++ pathKeys (e :: t) := by
      simp [pathKeys]
    have hrec := insertPathEntries_ok_of_nodup t (acc ++ [e]) (by rw [hre]; exact h)
    simp only [insertPathEntries, insertPathEntry, hcont, Bool.false_eq_true,
      if_false, hrec]
    simp

theorem insertPathEntries_dup :
    ∀ (l acc : List PathEntry), (pathKeys acc).Nodup →
    ¬ (pathKeys acc ++ pathKeys l).Nodup →
    ∃ p m, insertPathEntries acc l = .error (.duplicateOperation p m) ∧
      2 ≤ (pathKeys acc ++ pathKeys l).count (p, m)
  | [], acc, hnd, hdup => by
    exact absurd (by simpa [pathKeys] using hnd) hdup
  | e :: t, acc, hnd, hdup => by
    by_cases hc : containsPathKey e.1 acc = true
    · refine ⟨e.1.1, e.1.2, ?_, ?_⟩
      · simp [insertPathEntries, insertPathEntry, hc]
      · have hmem : e.1 ∈ pathKeys acc := containsPathKey_iff_mem.mp hc
        have h1 : 1 ≤ (pathKeys acc).count e.1 := List.one_le_count_iff.mpr hmem
        have h2 : 1 ≤ (pathKeys (e :: t)).count e.1 := by
          simp [pathKeys, List.count_cons]
        rw [List.count_append]
        have : ((e.1.1, e.1.2) : String × Method) = e.1 := rfl
        rw [this]
        omega
    · have hnotin : e.1 ∉ pathKeys acc := fun hm =>
        hc (containsPathKey_iff_mem.mpr hm)
      have hnd' : (pathKeys (acc ++ [e])).Nodup := by
        simp only [pathKeys, List.map_append, List.map_cons, List.map_nil]
        rw [List.nodup_append]
        refine ⟨hnd, List.nodup_singleton _, ?_⟩
        intro a ha hb
        rw [List.mem_singleton] at hb
        subst hb
        exact hnotin ha
      have hre : pathKeys (acc ++ [e]) ++ pathKeys t =
          pathKeys acc ++ pathKeys (e :: t) := by
        simp [pathKeys]
      have hdup' : ¬ (pathKeys (acc ++ [e]) ++ pathKeys t).Nodup := by
        rw [hre]; exact hdup
      obtain ⟨p, m, herr, hcount⟩ := insertPathEntries_dup t (acc ++ [e]) hnd' hdup'
      refine ⟨p, m, ?_, ?_⟩
      · simp only [insertPathEntries, insertPathEntry,
          if_neg (by simp [hc] : ¬ containsPathKey e.1 acc = true)]
        exact herr
      · rw [← hre]; exact hcount

theorem collectFrom_dup :
    ∀ (es : List EndpointDescriptor) (acc : Document),
    (∃ s, registerAll acc.schemas (schemasOf es) = .ok s) →
    (pathKeys acc.paths).Nodup →
    ¬ (pathKeys acc.paths ++ pathKeys (entriesOf es)).Nodup →
    ∃ p m, collectFrom acc es = .error (.duplicateOperation p m) ∧
      2 ≤ (pathKeys acc.paths ++ pathKeys (entriesOf es)).count (p, m)
  | [], acc, _, hnd, hdup => by
    exact absurd (by simpa [pathKeys, entriesOf] using hnd) hdup
  | e :: t, acc, hs, hnd, hdup => by
    by_cases hc : containsPathKey (e.info.path, e.info.method) acc.paths = true
    · refine ⟨e.info.path, e.info.method, ?_, ?_⟩
      · simp [collectFrom, collectStep, insertPathEntry, hc]
      · have hmem := containsPathKey_iff_mem.mp hc
        have h1 : 1 ≤ (pathKeys acc.paths).count (e.info.path, e.info.method) :=
          List.one_le_count_iff.mpr hmem
        have h2 : 1 ≤ (pathKeys (entriesOf (e :: t))).count
            (e.info.path, e.info.method) := by
          simp [pathKeys, entriesOf, List.count_cons]
        rw [List.count_append]
        omega
    · obtain ⟨s, hsall⟩ := hs
      rw [show schemasOf (e :: t) = e.schemas ++ schemasOf t by simp [schemasOf]]
        at hsall
      rw [registerAll_append] at hsall
      cases hreg : registerAll acc.schemas e.schemas with
      | error err => rw [hreg] at hsall; simp [Except.bind] at hsall
      | ok s₁ =>
        rw [hreg] at hsall
        simp only [Except.bind] at hsall
        have hstep : collectStep acc e =
            .ok ⟨acc.paths ++ [((e.info.path, e.info.method), e.info.operation)],
                 s₁, addTags acc.tags e.info.operation.tags⟩ := by
          simp [collectStep, insertPathEntry, hc, hreg]
        have hnd' : (pathKeys (acc.paths ++
            [((e.info.path, e.info.method), e.info.operation)])).Nodup := by
          simp only [pathKeys, List.map_append, List.map_cons, List.map_nil]
          rw [List.nodup_append]
          refine ⟨hnd, List.nodup_singleton _, ?_⟩
          intro a ha hb
          rw [List.mem_singleton] at hb
          subst hb
          exact hc (containsPathKey_iff_mem.mpr ha)
        have hre : pathKeys (acc.paths ++
              [((e.info.path, e.info.method), e.info.operation)]) ++
              pathKeys (entriesOf t) =
            pathKeys acc.paths ++ pathKeys (entriesOf (e :: t)) := by
          simp [pathKeys, entriesOf]
        have hdup' := fun hcon => hdup (hre ▸ hcon)
        obtain ⟨p, m, herr, hcount⟩ := collectFrom_dup t
          ⟨acc.paths ++ [((e.info.path, e.info.method), e.info.operation)],
           s₁, addTags acc.tags e.info.operation.tags⟩ ⟨s, hsall⟩ hnd' hdup'
        refine ⟨p, m, ?_, ?_⟩
        · simp only [collectFrom, hstep]
          exact herr
        · rw [← hre]
          exact hcount

theorem mergeFrom_dup :
    ∀ (entries : List (String × Document)) (acc : Document),
    (∃ s, registerAll acc.schemas (docsSchemas entries) = .ok s) →
    (pathKeys acc.paths).Nodup →
    ¬ (pathKeys acc.paths ++ finalKeys entries).Nodup →
    ∃ p m, mergeFrom acc entries = .error (.duplicateOperation p m) ∧
      2 ≤ (pathKeys acc.paths ++ finalKeys entries).count (p, m)
  | [], acc, _, hnd, hdup => by
    exact absurd (by simpa [finalKeys] using hnd) hdup
  | (pre, doc) :: rest, acc, hs, hnd, hdup => by
    by_cases hgrp :
        (pathKeys acc.paths ++ pathKeys (doc.paths.map (reKeyEntry pre))).Nodup
    · have hins := insertPathEntries_ok_of_nodup (doc.paths.map (reKeyEntry pre))
        acc.paths hgrp
      obtain ⟨s, hsall⟩ := hs
      rw [show docsSchemas ((pre, doc) :: rest) = doc.schemas ++ docsSchemas rest by
        simp [docsSchemas]] at hsall
      rw [registerAll_append] at hsall
      cases hreg : registerAll acc.schemas doc.schemas with
      | error err => rw [hreg] at hsall; simp [Except.bind] at hsall
      | ok s₁ =>
        rw [hreg] at hsall
        simp only [Except.bind] at hsall
        have hmd : mergeDocInto acc pre doc =
            .ok ⟨acc.paths ++ doc.paths.map (reKeyEntry pre), s₁,
                 addTags acc.tags doc.tags⟩ := by
          simp [mergeDocInto, hins, hreg]
        have hre : pathKeys (acc.paths ++ doc.paths.map (reKeyEntry pre)) ++
              finalKeys rest =
            pathKeys acc.paths ++ finalKeys ((pre, doc) :: rest) := by
          simp [pathKeys, finalKeys]
        have hnd1 : (pathKeys (acc.paths ++ doc.paths.map (reKeyEntry pre))).Nodup := by
          simpa [pathKeys] using hgrp
        have hdup' := fun hcon => hdup (hre ▸ hcon)
        obtain ⟨p, m, herr, hcount⟩ := mergeFrom_dup rest
          ⟨acc.paths ++ doc.paths.map (reKeyEntry pre), s₁,
           addTags acc.tags doc.tags⟩ ⟨s, hsall⟩ hnd1 hdup'
        refine ⟨p, m, ?_, ?_⟩
        · simp only [mergeFrom, hmd]
          exact herr
        · rw [← hre]
          exact hcount
    · obtain ⟨p, m, herr, hcount⟩ := insertPathEntries_dup
        (doc.paths.map (reKeyEntry pre)) acc.paths hnd hgrp
      refine ⟨p, m, ?_, ?_⟩
      · simp only [mergeFrom, mergeDocInto, herr]
      · have hsplit : pathKeys acc.paths ++ finalKeys ((pre, doc) :: rest) =
            (pathKeys acc.paths ++ pathKeys (doc.paths.map (reKeyEntry pre))) ++
              finalKeys rest := by
          simp [finalKeys, pathKeys]
        rw [hsplit, List.count_append]
        omega

/-- C5.  Two endpoints bound to the same (path, method) — within one mount
group at collection time, or across mount groups after re-keying at merge
time — make the build fail with `DuplicateOperation{path, method}`, the
reported key being a duplicated key of the final (re-keyed) path-key list
(§4.3, §4.4, §8).  The schema-consistency hypothesis rules out a schema
conflict being reported first under §7's early-detection policy. -/
theorem duplicate_operation_detection :
    (∀ (es : List EndpointDescriptor) (s : Registry),
       registerAll [] (schemasOf es) = .ok s →
       ¬ (pathKeys (entriesOf es)).Nodup →
       ∃ p m, collectOperations es = .error (.duplicateOperation p m) ∧
         2 ≤ (pathKeys (entriesOf es)).count (p, m)) ∧
    (∀ (entries : List (String × Document)) (s : Registry),
       registerAll [] (docsSchemas entries) = .ok s →
       ¬ (finalKeys entries).Nodup →
       ∃ p m, marge_spec_list entries = .error (.duplicateOperation p m) ∧
         2 ≤ (finalKeys entries).count (p, m)) := by
  constructor
  · intro es s hs hdup
    have h := collectFrom_dup es emptyDoc ⟨s, by simpa [emptyDoc] using hs⟩
      (by simp [emptyDoc, pathKeys]) (by simpa [emptyDoc, pathKeys] using hdup)
    simpa [collectOperations, emptyDoc, pathKeys] using h
  · intro entries s hs hdup
    have h := mergeFrom_dup entries emptyDoc ⟨s, by simpa [emptyDoc] using hs⟩
      (by simp [emptyDoc, pathKeys]) (by simpa [emptyDoc, pathKeys] using hdup)
    simpa [marge_spec_list, emptyDoc, pathKeys] using h

/-- A mount list in which two groups mounted at `"/a"` both declare
`GET /x`, colliding on the final key `("/a/x", GET)`. -/
def entriesDup : List (String × Document) :=
  [("/a", ⟨[(("/x", .get), opPing)], [], []⟩),
   ("/a", ⟨[(("/x", .get), opPing)], [], []⟩)]

/-- Witness for C5: an intra-group duplicate and a cross-group duplicate both
surface as `DuplicateOperation`. -/
theorem duplicate_operation_detection_witness :
    isDuplicateOperationErr (collectOperations [epPing, epPing]) = true ∧
    isDuplicateOperationErr (marge_spec_list entriesDup) = true := by
  constructor
  · obtain ⟨p, m, herr, -⟩ := duplicate_operation_detection.1 [epPing, epPing] []
      (by decide) (by decide)
    rw [herr]
    rfl
  · obtain ⟨p, m, herr, -⟩ := duplicate_operation_detection.2 entriesDup []
      (by decide) (by decide)
    rw [herr]
    rfl

/-- C2 counterexample.  An invalid base path — a CORE failure of the
`InvalidBasePath` taxonomy entry — makes `mount_endpoints_and_merged_docs`
abort via `assert!` (`rocket-okapi/src/lib.rs:158`) instead of handing the
caller a structured error value, refuting the claim that every CORE failure
is reported as a structured error and never by aborting the process. -/
theorem invalid_base_path_panics :
    mount_endpoints_and_merged_docs "/v1/" [] = .panicked basePathPanicMsg ∧
    (mount_endpoints_and_merged_docs "/v1/" []).isStructuredError = false := by
  constructor <;> decide

/-- C2 (amended).  At the `mount_endpoints_and_merged_docs!` level every CORE
failure aborts the build with a panic — the `assert!` message for an invalid
base path, the `"Could not merge OpenAPI spec: "` message wrapping the merge
error — and the macro never returns a structured error value to the caller
(`rocket-okapi/src/lib.rs:157-169`). -/
theorem core_failures_surface_as_panic (base : String)
    (entries : List (String × Document)) :
    (mount_endpoints_and_merged_docs base entries).isStructuredError = false ∧
    (basePathOk base = false →
      mount_endpoints_and_merged_docs base entries = .panicked basePathPanicMsg) ∧
    (∀ e, basePathOk base = true → marge_spec_list entries = .error e →
      mount_endpoints_and_merged_docs base entries = .panicked (mergePanicMsg e)) := by
  refine ⟨?_, ?_, ?_⟩
  · unfold mount_endpoints_and_merged_docs
    by_cases hb : basePathOk base = true
    · rw [if_pos hb]
      unfold mergeOutcome
      cases marge_spec_list entries <;> rfl
    · rw [if_neg hb]
      rfl
  · intro hb
    unfold mount_endpoints_and_merged_docs
    rw [if_neg (by simp [hb])]
  · intro e hb hm
    unfold mount_endpoints_and_merged_docs
    rw [if_pos hb]
    unfold mergeOutcome
    rw [hm]

/-- Witness for C2 (amended): a concrete invalid base path panics with the
assert message, and a concrete merge collision panics with the merge
message. -/
theorem core_failures_surface_as_panic_witness :
    mount_endpoints_and_merged_docs "/v1/" entriesW = .panicked basePathPanicMsg ∧
    mount_endpoints_and_merged_docs "/v1" entriesDup =
      .panicked (mergePanicMsg (.duplicateOperation "/a/x" .get)) :=
  ⟨(core_failures_surface_as_panic "/v1/" entriesW).2.1 (by decide),
   (core_failures_surface_as_panic "/v1" entriesDup).2.2
     (.duplicateOperation "/a/x" .get) (by decide) (by decide)⟩

/-- C3 counterexample.  The base path `"/x/"` is rejected, but the rejection
is a panic with the `assert!` message, not a structured `InvalidBasePath`
error value handed to the caller (`rocket-okapi/src/lib.rs:158`). -/
theorem base_path_rejection_is_panic :
    mount_endpoints_and_merged_docs "/x/" [] = .panicked basePathPanicMsg ∧
    (mount_endpoints_and_merged_docs "/x/" []).isStructuredError = false := by
  constructor <;> decide

/-- C3 (amended).  A base path is accepted exactly when it is `"/"` or does
not end with a path separator; a rejected base path makes the build panic
with the `assert!` message rather than fail with an `InvalidBasePath` error
value (`rocket-okapi/src/lib.rs:157-158`). -/
theorem base_path_validation (base : String)
    (entries : List (String × Document)) :
    (basePathOk base = true ↔ (base = "/" ∨ ¬ base.data.getLast? = some '/')) ∧
    (basePathOk base = false →
      mount_endpoints_and_merged_docs base entries = .panicked basePathPanicMsg) ∧
    (basePathOk base = true →
      mount_endpoints_and_merged_docs base entries =
        mergeOutcome (marge_spec_list entries)) := by
  refine ⟨?_, ?_, ?_⟩
  · unfold basePathOk
    simp
  · intro hb
    unfold mount_endpoints_and_merged_docs
    rw [if_neg (by simp [hb])]
  · intro hb
    unfold mount_endpoints_and_merged_docs
    rw [if_pos hb]

/-- Witness for C3 (amended): `"/v1/"` is rejected (with the panic), while
`"/v1"` and `"/"` are accepted. -/
theorem base_path_validation_witness :
    (basePathOk "/v1/" = false ∧ basePathOk "/v1" = true ∧ basePathOk "/" = true) ∧
    mount_endpoints_and_merged_docs "/v1/" entriesW = .panicked basePathPanicMsg ∧
    mount_endpoints_and_merged_docs "/v1" entriesW =
      mergeOutcome (marge_spec_list entriesW) :=
  ⟨by decide,
   (base_path_validation "/v1/" entriesW).2.1 (by decide),
   (base_path_validation "/v1" entriesW).2.2 (by decide)⟩

/-- Sample single-group document for the re-keying theorems. -/
def docA : Document := ⟨[(("/ping", .get), opPing)], [], []⟩

/-- C4 counterexample.  Merging under base path `"/api"` with mount point
`"/a"` produces the document key `"/a/ping"`, not `"/api/a/ping"`: the macro
hands `marge_spec_list` only the `(path, openapi)` pairs
(`rocket-okapi/src/lib.rs:163,166`), so the base path is never prepended to
the merged document's paths. -/
theorem base_path_not_prepended :
    mount_endpoints_and_merged_docs "/api" [("/a", docA)] =
      .ok ⟨[(("/a/ping", .get), opPing)], [], []⟩ ∧
    containsPathKey ("/a/ping", .get) [(("/a/ping", .get), opPing)] = true ∧
    containsPathKey ("/api/a/ping", .get) [(("/a/ping", .get), opPing)] = false := by
  refine ⟨?_, ?_, ?_⟩ <;> decide

theorem marge_single (pre : String) (doc : Document) :
    marge_spec_list [(pre, doc)] =
      match insertPathEntries [] (doc.paths.map (reKeyEntry pre)) with
      | .error err => .error err
      | .ok paths =>
        match registerAll [] doc.schemas with
        | .error err => .error err
        | .ok s => .ok ⟨paths, s, addTags [] doc.tags⟩ := by
  simp only [marge_spec_list, mergeFrom, mergeDocInto, emptyDoc]
  cases insertPathEntries [] (doc.paths.map (reKeyEntry pre)) with
  | error err => rfl
  | ok paths =>
    cases registerAll [] doc.schemas with
    | error err => rfl
    | ok s => rfl

/-- C4 (amended).  The merger re-keys every path of a mounted document by
prepending the mount point only (the base path is used for mounting the
routes, not for the document paths), with separator normalization: trailing
separators of the mount point are dropped, so the result has no double
separator, and the endpoint path survives unchanged as the suffix of the
re-keyed path (§4.4). -/
theorem merger_rekeys_with_mount_prefix (pre : String) (doc d : Document)
    (hm : marge_spec_list [(pre, doc)] = .ok d)
    (hpre : noDoubleSep pre.data = true)
    (hpaths : doc.paths.all
      (fun e => noDoubleSep e.1.1.data && (e.1.1.data.head? == some '/')) = true) :
    d.paths = doc.paths.map (reKeyEntry pre) ∧
    d.paths.all (fun e => noDoubleSep e.1.1.data) = true ∧
    doc.paths.all (fun e =>
      (joinPath pre e.1.1).data == dropTrailingSlashes pre.data ++ e.1.1.data) = true := by
  rw [List.all_eq_true] at hpaths
  have hp1 : d.paths = doc.paths.map (reKeyEntry pre) := by
    rw [marge_single] at hm
    cases hins : insertPathEntries [] (doc.paths.map (reKeyEntry pre)) with
    | error err => rw [hins] at hm; cases hm
    | ok paths =>
      rw [hins] at hm
      cases hreg : registerAll [] doc.schemas with
      | error err => rw [hreg] at hm; cases hm
      | ok s =>
        rw [hreg] at hm
        cases hm
        simpa using insertPathEntries_ok_eq hins
  refine ⟨hp1, ?_, ?_⟩
  · rw [List.all_eq_true]
    intro e he
    rw [hp1] at he
    obtain ⟨e₀, he₀, rfl⟩ := List.mem_map.mp he
    have h₀ := hpaths e₀ he₀
    rw [Bool.and_eq_true] at h₀
    show noDoubleSep (joinPath pre e₀.1.1).data = true
    show noDoubleSep (joinChars pre.data e₀.1.1.data) = true
    exact noDoubleSep_joinChars hpre h₀.1
  · rw [List.all_eq_true]
    intro e he
    have h₀ := hpaths e he
    rw [Bool.and_eq_true] at h₀
    have hhead : e.1.1.data.head? = some '/' := by
      have := h₀.2
      rwa [beq_iff_eq] at this
    rw [beq_iff_eq]
    show joinChars pre.data e.1.1.data = dropTrailingSlashes pre.data ++ e.1.1.data
    exact joinChars_keeps_suffix hhead

/-- Witness for C4 (amended) at a concrete mount point with a trailing
separator. -/
theorem merger_rekeys_with_mount_prefix_witness :
    ([(("/a/ping", Method.get), opPing)] : List PathEntry) =
      docA.paths.map (reKeyEntry "/a/") ∧
    ([(("/a/ping", Method.get), opPing)] : List PathEntry).all
      (fun e => noDoubleSep e.1.1.data) = true ∧
    docA.paths.all (fun e =>
      (joinPath "/a/" e.1.1).data ==
        dropTrailingSlashes "/a/".data ++ e.1.1.data) = true := by
  have h := merger_rekeys_with_mount_prefix "/a/" docA
    ⟨[(("/a/ping", .get), opPing)], [], []⟩ (by decide) (by decide) (by decide)
  exact h

/-- Modelled from the spec: a type's externally-produced shape description
(§4.2): kind plus nested shape descriptions; record fields are encoded as a
cons-chain; `named` refers to a type whose shape the environment supplies. -/
inductive Shape where
  | primitive (kind : String)
  | array (elem : Shape)
  | senum (variants : List String)
  | recordNil
  | recordCons (fieldName : String) (required : Bool)
      (fieldType : Shape) (rest : Shape)
  | named (name : String)
deriving DecidableEq, Repr

/-- First-match lookup of a named type's shape. -/
def lookupShape : List (String × Shape) → String → Option Shape
  | [], _ => none
  | (m, s) :: rest, n => if m = n then some s else lookupShape rest n

/-- Generator failures: a registry error surfaced unchanged (§4.2 introduces
no new error kinds), or exhaustion of the recursion budget. -/
inductive GenError where
  | registry (e : BuildError)
  | outOfFuel
deriving DecidableEq, Repr

/-- Result of one Generator walk: the produced definition, the set of names
whose registration is in progress or complete, and the updated registry. -/
abbrev GenOut := Except GenError (SchemaDefinition × List String × Registry)

/-- Modelled from the spec: the Generator's depth-first walk (§4.2).  At a
named type, a name already marked (registration in progress or complete)
yields a reference without recursing; otherwise the name is marked *before*
recursing into its body, the body's definition is registered via §4.1, and a
reference is returned.  The fuel argument bounds the recursion depth; by
`generator_recursion_safety` the budget chosen by `generate` never runs out. -/
def genShape (env : List (String × Shape)) :
    Nat → List String → Registry → Shape → GenOut
  | 0, _, _, _ => .error .outOfFuel
  | fuel + 1, visited, reg, s =>
    match s with
    | .primitive k => .ok (.primitive k, visited, reg)
    | .senum vs => .ok (.enum vs, visited, reg)
    | .recordNil => .ok (.objectNil, visited, reg)
    | .array el =>
      match genShape env fuel visited reg el with
      | .ok (d, v, r) => .ok (.array d, v, r)
      | .error e => .error e
    | .recordCons f rq ty rest =>
      match genShape env fuel visited reg ty with
      | .error e => .error e
      | .ok (d, v₁, r₁) =>
        match genShape env fuel v₁ r₁ rest with
        | .error e => .error e
        | .ok (dr, v₂, r₂) => .ok (.objectCons f rq d dr, v₂, r₂)
    | .named n =>
      if n ∈ visited then .ok (.reference n, visited, reg)
      else
        match lookupShape env n with
        | none => .ok (.reference n, visited, reg)
        | some body =>
          match genShape env fuel (n :: visited) reg body with
          | .error e => .error e
          | .ok (d, v, r) =>
            match register r n d with
            | .ok r' => .ok (.reference n, v, r')
            | .error e => .error (.registry e)

/-- Size measure of a shape (records and arrays count their nested shapes). -/
def shapeWeight : Shape → Nat
  | .array el => shapeWeight el + 1
  | .recordCons _ _ ty rest => shapeWeight ty + shapeWeight rest + 1
  | _ => 1

/-- Total weight of the environment entries not yet marked. -/
def envWeight (env : List (String × Shape)) (visited : List String) : Nat :=
  ((env.filter (fun e => decide (¬ e.1 ∈ visited))).map
    (fun e => shapeWeight e.2 + 1)).sum

/-- The recursion budget `generate` allots: enough for every environment
entry plus the entry shape. -/
def fuelFor (env : List (String × Shape)) : Nat := envWeight env [] + 2

/-- Modelled from the spec: the Generator entry point (§4.2): walk the named
type against the environment, treating every name already present in the
registry as registration-complete, and return the reference together with the
mutated registry. -/
def generate (env : List (String × Shape)) (reg : Registry) (name : String) :
    GenOut :=
  genShape env (fuelFor env) (reg.map Prod.fst) reg (.named name)

theorem shapeWeight_pos (s : Shape) : 1 ≤ shapeWeight s := by
  cases s <;> simp [shapeWeight]

theorem envWeight_mono {visited v' : List String}
    (hsub : visited ⊆ v') (env : List (String × Shape)) :
    envWeight env v' ≤ envWeight env visited := by
  induction env with
  | nil => simp [envWeight]
  | cons e t ih =>
    simp only [envWeight, List.filter_cons] at ih ⊢
    by_cases hv' : e.1 ∈ v'
    · have hnot : ¬ decide (¬ e.1 ∈ v') = true := by simp [hv']
      rw [if_neg hnot]
      by_cases hv : e.1 ∈ visited
      · rw [if_neg (by simp [hv])]
        exact ih
      · rw [if_pos (by simp [hv])]
        simp only [List.map_cons, List.sum_cons]
        omega
    · have hvnot : ¬ e.1 ∈ visited := fun h => hv' (hsub h)
      rw [if_pos (by simp [hv']), if_pos (by simp [hvnot])]
      simp only [List.map_cons, List.sum_cons]
      omega

theorem envWeight_cons_notmem {m : String} {b : Shape} {visited : List String}
    (h : ¬ m ∈ visited) (t : List (String × Shape)) :
    envWeight ((m, b) :: t) visited = shapeWeight b + 1 + envWeight t visited := by
  simp [envWeight, List.filter_cons, h]

theorem envWeight_cons_mem {m : String} {b : Shape} {visited : List String}
    (h : m ∈ visited) (t : List (String × Shape)) :
    envWeight ((m, b) :: t) visited = envWeight t visited := by
  simp [envWeight, List.filter_cons, h]

theorem envWeight_named {n : String} {body : Shape} :
    ∀ {env : List (String × Shape)} {visited : List String},
    ¬ n ∈ visited → lookupShape env n = some body →
    shapeWeight body + 1 + envWeight env (n :: visited) ≤ envWeight env visited := by
  intro env
  induction env with
  | nil => intro visited _ hl; simp [lookupShape] at hl
  | cons e t ih =>
    intro visited hn hl
    obtain ⟨m, b⟩ := e
    by_cases hm : m = n
    · subst hm
      simp [lookupShape] at hl
      subst hl
      rw [envWeight_cons_mem (List.mem_cons_self m visited) t,
          envWeight_cons_notmem hn t]
      have hsub := envWeight_mono
        (show visited ⊆ m :: visited from fun a ha => List.mem_cons_of_mem m ha) t
      omega
    · simp only [lookupShape, if_neg hm] at hl
      have hrec := ih hn hl
      by_cases hmem : m ∈ visited
      · rw [envWeight_cons_mem hmem t,
            envWeight_cons_mem (List.mem_cons_of_mem n hmem) t]
        exact hrec
      · have hm2 : ¬ m ∈ n :: visited := by simp [List.mem_cons, hm, hmem]
        rw [envWeight_cons_notmem hm2 t, envWeight_cons_notmem hmem t]
        omega

theorem genShape_visited_mono (env : List (String × Shape)) :
    ∀ (fuel : Nat) (visited : List String) (reg : Registry) (s : Shape)
      {d : SchemaDefinition} {v : List String} {r : Registry},
    genShape env fuel visited reg s = .ok (d, v, r) → visited ⊆ v
  | 0, visited, reg, s, d, v, r, h => by simp [genShape] at h
  | fuel + 1, visited, reg, s, d, v, r, h => by
    cases s with
    | primitive k => simp only [genShape] at h; cases h; exact List.Subset.refl _
    | senum vs => simp only [genShape] at h; cases h; exact List.Subset.refl _
    | recordNil => simp only [genShape] at h; cases h; exact List.Subset.refl _
    | array el =>
      cases hel : genShape env fuel visited reg el with
      | error e => simp only [genShape, hel] at h; cases h
      | ok p =>
        obtain ⟨d₁, v₁, r₁⟩ := p
        simp only [genShape, hel] at h
        cases h
        exact genShape_visited_mono env fuel visited reg el hel
    | recordCons f rq ty rest =>
      cases hty : genShape env fuel visited reg ty with
      | error e => simp only [genShape, hty] at h; cases h
      | ok p =>
        obtain ⟨d₁, v₁, r₁⟩ := p
        cases hrest : genShape env fuel v₁ r₁ rest with
        | error e => simp only [genShape, hty, hrest] at h; cases h
        | ok q =>
          obtain ⟨d₂, v₂, r₂⟩ := q
          simp only [genShape, hty, hrest] at h
          cases h
          exact (genShape_visited_mono env fuel visited reg ty hty).trans
            (genShape_visited_mono env fuel v₁ r₁ rest hrest)
    | named n =>
      by_cases hn : n ∈ visited
      · simp only [genShape, if_pos hn] at h
        cases h
        exact List.Subset.refl _
      · cases hls : lookupShape env n with
        | none =>
          simp only [genShape, if_neg hn, hls] at h
          cases h
          exact List.Subset.refl _
        | some body =>
          cases hb : genShape env fuel (n :: visited) reg body with
          | error e => simp only [genShape, if_neg hn, hls, hb] at h; cases h
          | ok p =>
            obtain ⟨d₁, v₁, r₁⟩ := p
            cases hreg : register r₁ n d₁ with
            | error e => simp only [genShape, if_neg hn, hls, hb, hreg] at h; cases h
            | ok r' =>
              simp only [genShape, if_neg hn, hls, hb, hreg] at h
              cases h
              exact fun a ha => genShape_visited_mono env fuel (n :: visited)
                reg body hb (List.mem_cons_of_mem n ha)

/-- `true` iff the Generator ran out of recursion budget. -/
def isOutOfFuelGen : GenOut → Bool
  | .error .outOfFuel => true
  | _ => false

theorem genShape_no_fuel_error (env : List (String × Shape)) :
    ∀ (fuel : Nat) (visited : List String) (reg : Registry) (s : Shape),
    shapeWeight s + envWeight env visited < fuel →
    isOutOfFuelGen (genShape env fuel visited reg s) = false
  | 0, visited, reg, s, h => by omega
  | fuel + 1, visited, reg, s, h => by
    cases s with
    | primitive k => rfl
    | senum vs => rfl
    | recordNil => rfl
    | array el =>
      have hel : shapeWeight el + envWeight env visited < fuel := by
        simp only [shapeWeight] at h
        omega
      have ih := genShape_no_fuel_error env fuel visited reg el hel
      cases hx : genShape env fuel visited reg el with
      | ok p =>
        obtain ⟨d, v, r⟩ := p
        simp only [genShape, hx]
        rfl
      | error e =>
        rw [hx] at ih
        simp only [genShape, hx]
        exact ih
    | recordCons f rq ty rest =>
      have hw : shapeWeight (.recordCons f rq ty rest) =
          shapeWeight ty + shapeWeight rest + 1 := rfl
      have hty : shapeWeight ty + envWeight env visited < fuel := by
        have := shapeWeight_pos rest
        omega
      have ih1 := genShape_no_fuel_error env fuel visited reg ty hty
      cases hx : genShape env fuel visited reg ty with
      | error e =>
        rw [hx] at ih1
        simp only [genShape, hx]
        exact ih1
      | ok p =>
        obtain ⟨d, v₁, r₁⟩ := p
        have hsub := genShape_visited_mono env fuel visited reg ty hx
        have hmono := envWeight_mono hsub env
        have hrest : shapeWeight rest + envWeight env v₁ < fuel := by
          have := shapeWeight_pos ty
          omega
        have ih2 := genShape_no_fuel_error env fuel v₁ r₁ rest hrest
        cases hy : genShape env fuel v₁ r₁ rest with
        | error e =>
          rw [hy] at ih2
          simp only [genShape, hx, hy]
          exact ih2
        | ok q =>
          obtain ⟨dr, v₂, r₂⟩ := q
          simp only [genShape, hx, hy]
          rfl
    | named n =>
      by_cases hn : n ∈ visited
      · simp only [genShape, if_pos hn]
        rfl
      · cases hls : lookupShape env n with
        | none =>
          simp only [genShape, if_neg hn, hls]
          rfl
        | some body =>
          have hb : shapeWeight body + envWeight env (n :: visited) < fuel := by
            have := envWeight_named hn hls
            have hw : shapeWeight (.named n) = 1 := rfl
            omega
          have ih := genShape_no_fuel_error env fuel (n :: visited) reg body hb
          cases hx : genShape env fuel (n :: visited) reg body with
          | error e =>
            rw [hx] at ih
            simp only [genShape, if_neg hn, hls, hx]
            exact ih
          | ok p =>
            obtain ⟨d, v, r⟩ := p
            cases hreg : register r n d with
            | ok r' =>
              simp only [genShape, if_neg hn, hls, hx, hreg]
              rfl
            | error e =>
              simp only [genShape, if_neg hn, hls, hx, hreg]
              rfl

theorem genShape_succ_recordCons (env : List (String × Shape)) (fuel : Nat)
    (visited : List String) (reg : Registry) (f : String) (rq : Bool)
    (ty rest : Shape) :
    genShape env (fuel + 1) visited reg (.recordCons f rq ty rest) =
      match genShape env fuel visited reg ty with
      | .error e => .error e
      | .ok (d, v₁, r₁) =>
        match genShape env fuel v₁ r₁ rest with
        | .error e => .error e
        | .ok (dr, v₂, r₂) => .ok (.objectCons f rq d dr, v₂, r₂) := rfl

theorem genShape_succ_named (env : List (String × Shape)) (fuel : Nat)
    (visited : List String) (reg : Registry) (n : String) :
    genShape env (fuel + 1) visited reg (.named n) =
      if n ∈ visited then .ok (.reference n, visited, reg)
      else
        match lookupShape env n with
        | none => .ok (.reference n, visited, reg)
        | some body =>
          match genShape env fuel (n :: visited) reg body with
          | .error e => .error e
          | .ok (d, v, r) =>
            match register r n d with
            | .ok r' => .ok (.reference n, v, r')
            | .error e => .error (.registry e) := rfl

/-- The environment of one self-referential type: a record whose field `f` is
an optional (non-required) reference back to the type itself. -/
def selfRefEnv (n f : String) : List (String × Shape) :=
  [(n, .recordCons f false (.named n) .recordNil)]

/-- The definition the Generator produces for `selfRefEnv`. -/
def selfRefDef (n f : String) : SchemaDefinition :=
  .objectCons f false (.reference n) .objectNil

/-- Number of reference-edges to `target` in a definition tree. -/
def refCount (target : String) : SchemaDefinition → Nat
  | .reference m => if m = target then 1 else 0
  | .array d => refCount target d
  | .objectCons _ _ d rest => refCount target d + refCount target rest
  | _ => 0

/-- C8.  The Generator always terminates within the recursion budget
`generate` allots (it never returns `outOfFuel`), and on a self-referential
type shape — a record holding an optional reference to itself — it registers
the type successfully and produces a finite definition holding exactly one
reference-edge back to the type, not an unbounded inline expansion
(§4.2, §8). -/
theorem generator_recursion_safety :
    (∀ (env : List (String × Shape)) (reg : Registry) (name : String),
       isOutOfFuelGen (generate env reg name) = false) ∧
    (∀ (n f : String),
       generate (selfRefEnv n f) [] n =
         .ok (.reference n, [n], [(n, selfRefDef n f)]) ∧
       refCount n (selfRefDef n f) = 1) := by
  constructor
  · intro env reg name
    unfold generate fuelFor
    apply genShape_no_fuel_error
    have h1 := envWeight_mono (List.nil_subset (reg.map Prod.fst)) env
    have h2 : shapeWeight (.named name) = 1 := rfl
    omega
  · intro n f
    have hfuel : fuelFor (selfRefEnv n f) = 6 := by
      simp [fuelFor, envWeight, selfRefEnv, shapeWeight]
    have hlk : lookupShape (selfRefEnv n f) n =
        some (.recordCons f false (.named n) .recordNil) := by
      simp [selfRefEnv, lookupShape]
    have s1 : genShape (selfRefEnv n f) 4 [n] [] (.named n) =
        .ok (.reference n, [n], []) := by
      show genShape (selfRefEnv n f) (3 + 1) [n] [] (.named n) =
        .ok (.reference n, [n], [])
      rw [genShape_succ_named, if_pos (List.mem_singleton_self n)]
    have s2 : genShape (selfRefEnv n f) 4 [n] [] .recordNil =
        .ok (.objectNil, [n], []) := by
      show genShape (selfRefEnv n f) (3 + 1) [n] [] .recordNil =
        .ok (.objectNil, [n], [])
      rfl
    have s3 : genShape (selfRefEnv n f) 5 [n] []
        (.recordCons f false (.named n) .recordNil) =
        .ok (.objectCons f false (.reference n) .objectNil, [n], []) := by
      show genShape (selfRefEnv n f) (4 + 1) [n] []
        (.recordCons f false (.named n) .recordNil) =
        .ok (.objectCons f false (.reference n) .objectNil, [n], [])
      rw [genShape_succ_recordCons]
      simp only [s1, s2]
    have hmain : generate (selfRefEnv n f) [] n =
        .ok (.reference n, [n], [(n, selfRefDef n f)]) := by
      unfold generate
      rw [hfuel]
      show genShape (selfRefEnv n f) (5 + 1) ([].map Prod.fst) [] (.named n) =
        .ok (.reference n, [n], [(n, selfRefDef n f)])
      rw [genShape_succ_named, List.map_nil, if_neg (List.not_mem_nil n), hlk]
      simp only [s3]
      simp [register, lookupSchema, selfRefDef]
    refine ⟨hmain, ?_⟩
    simp [refCount, selfRefDef]

/-- Relational semantics of the Generator walk of §4.2: `GenRel` relates a
starting state and shape to every outcome a run may produce; it mirrors the
case analysis of `genShape`. -/
inductive GenRel (env : List (String × Shape)) :
    Nat → List String → Registry → Shape → GenOut → Prop where
  | prim (fuel : Nat) (v : List String) (r : Registry) (k : String) :
      GenRel env (fuel + 1) v r (.primitive k) (.ok (.primitive k, v, r))
  | senum (fuel : Nat) (v : List String) (r : Registry) (vs : List String) :
      GenRel env (fuel + 1) v r (.senum vs) (.ok (.enum vs, v, r))
  | recNil (fuel : Nat) (v : List String) (r : Registry) :
      GenRel env (fuel + 1) v r .recordNil (.ok (.objectNil, v, r))
  | fuelOut (v : List String) (r : Registry) (s : Shape) :
      GenRel env 0 v r s (.error .outOfFuel)
  | arrOk : GenRel env fuel v r el (.ok (d, v', r')) →
      GenRel env (fuel + 1) v r (.array el) (.ok (.array d, v', r'))
  | arrErr : GenRel env fuel v r el (.error e) →
      GenRel env (fuel + 1) v r (.array el) (.error e)
  | recConsErrL : GenRel env fuel v r ty (.error e) →
      GenRel env (fuel + 1) v r (.recordCons f rq ty rest) (.error e)
  | recConsErrR : GenRel env fuel v r ty (.ok (d, v₁, r₁)) →
      GenRel env fuel v₁ r₁ rest (.error e) →
      GenRel env (fuel + 1) v r (.recordCons f rq ty rest) (.error e)
  | recConsOk : GenRel env fuel v r ty (.ok (d, v₁, r₁)) →
      GenRel env fuel v₁ r₁ rest (.ok (dr, v₂, r₂)) →
      GenRel env (fuel + 1) v r (.recordCons f rq ty rest)
        (.ok (.objectCons f rq d dr, v₂, r₂))
  | namedVisited : n ∈ v →
      GenRel env (fuel + 1) v r (.named n) (.ok (.reference n, v, r))
  | namedExternal : ¬ n ∈ v → lookupShape env n = none →
      GenRel env (fuel + 1) v r (.named n) (.ok (.reference n, v, r))
  | namedBodyErr : ¬ n ∈ v → lookupShape env n = some body →
      GenRel env fuel (n :: v) r body (.error e) →
      GenRel env (fuel + 1) v r (.named n) (.error e)
  | namedRegErr : ¬ n ∈ v → lookupShape env n = some body →
      GenRel env fuel (n :: v) r body (.ok (d, v', r')) →
      register r' n d = .error e →
      GenRel env (fuel + 1) v r (.named n) (.error (.registry e))
  | namedOk : ¬ n ∈ v → lookupShape env n = some body →
      GenRel env fuel (n :: v) r body (.ok (d, v', r')) →
      register r' n d = .ok r₂ →
      GenRel env (fuel + 1) v r (.named n) (.ok (.reference n, v', r₂))

/-- The functional Generator walk is one run of the relational semantics. -/
theorem genRel_sound (env : List (String × Shape)) :
    ∀ (fuel : Nat) (visited : List String) (reg : Registry) (s : Shape),
    GenRel env fuel visited reg s (genShape env fuel visited reg s)
  | 0, v, r, s => GenRel.fuelOut v r s
  | fuel + 1, v, r, s => by
    cases s with
    | primitive k => exact GenRel.prim fuel v r k
    | senum vs => exact GenRel.senum fuel v r vs
    | recordNil => exact GenRel.recNil fuel v r
    | array el =>
      have ih := genRel_sound env fuel v r el
      cases hel : genShape env fuel v r el with
      | ok p =>
        obtain ⟨d, v', r'⟩ := p
        rw [hel] at ih
        have hstep : genShape env (fuel + 1) v r (.array el) =
            .ok (.array d, v', r') := by
          simp only [genShape, hel]
        rw [hstep]
        exact GenRel.arrOk ih
      | error e =>
        rw [hel] at ih
        have hstep : genShape env (fuel + 1) v r (.array el) = .error e := by
          simp only [genShape, hel]
        rw [hstep]
        exact GenRel.arrErr ih
    | recordCons f rq ty rest =>
      have ih₁ := genRel_sound env fuel v r ty
      cases hty : genShape env fuel v r ty with
      | error e =>
        rw [hty] at ih₁
        have hstep : genShape env (fuel + 1) v r (.recordCons f rq ty rest) =
            .error e := by
          simp only [genShape, hty]
        rw [hstep]
        exact GenRel.recConsErrL ih₁
      | ok p =>
        obtain ⟨d, v₁, r₁⟩ := p
        rw [hty] at ih₁
        have ih₂ := genRel_sound env fuel v₁ r₁ rest
        cases hrest : genShape env fuel v₁ r₁ rest with
        | error e =>
          rw [hrest] at ih₂
          have hstep : genShape env (fuel + 1) v r (.recordCons f rq ty rest) =
              .error e := by
            simp only [genShape, hty, hrest]
          rw [hstep]
          exact GenRel.recConsErrR ih₁ ih₂
        | ok q =>
          obtain ⟨dr, v₂, r₂⟩ := q
          rw [hrest] at ih₂
          have hstep : genShape env (fuel + 1) v r (.recordCons f rq ty rest) =
              .ok (.objectCons f rq d dr, v₂, r₂) := by
            simp only [genShape, hty, hrest]
          rw [hstep]
          exact GenRel.recConsOk ih₁ ih₂
    | named n =>
      by_cases hn : n ∈ v
      · have hstep : genShape env (fuel + 1) v r (.named n) =
            .ok (.reference n, v, r) := by
          simp only [genShape, if_pos hn]
        rw [hstep]
        exact GenRel.namedVisited hn
      · cases hls : lookupShape env n with
        | none =>
          have hstep : genShape env (fuel + 1) v r (.named n) =
              .ok (.reference n, v, r) := by
            simp only [genShape, if_neg hn, hls]
          rw [hstep]
          exact GenRel.namedExternal hn hls
        | some body =>
          have ih := genRel_sound env fuel (n :: v) r body
          cases hb : genShape env fuel (n :: v) r body with
          | error e =>
            rw [hb] at ih
            have hstep : genShape env (fuel + 1) v r (.named n) = .error e := by
              simp only [genShape, if_neg hn, hls, hb]
            rw [hstep]
            exact GenRel.namedBodyErr hn hls ih
          | ok p =>
            obtain ⟨d, v', r'⟩ := p
            rw [hb] at ih
            cases hreg : register r' n d with
            | ok r₂ =>
              have hstep : genShape env (fuel + 1) v r (.named n) =
                  .ok (.reference n, v', r₂) := by
                simp only [genShape, if_neg hn, hls, hb, hreg]
              rw [hstep]
              exact GenRel.namedOk hn hls ih hreg
            | error e =>
              have hstep : genShape env (fuel + 1) v r (.named n) =
                  .error (.registry e) := by
                simp only [genShape, if_neg hn, hls, hb, hreg]
              rw [hstep]
              exact GenRel.namedRegErr hn hls ih hreg

/-- The relational Generator semantics is a function of its input: any two
runs from the same state on the same shape produce the same outcome. -/
theorem genRel_det (env : List (String × Shape)) :
    ∀ {fuel : Nat} {visited : List String} {reg : Registry} {s : Shape}
      {o₁ : GenOut},
    GenRel env fuel visited reg s o₁ →
    ∀ {o₂ : GenOut}, GenRel env fuel visited reg s o₂ → o₁ = o₂ := by
  intro fuel visited reg s o₁ h₁
  induction h₁ with
  | prim fuel v r k =>
    intro o₂ h₂
    cases h₂
    rfl
  | senum fuel v r vs =>
    intro o₂ h₂
    cases h₂
    rfl
  | recNil fuel v r =>
    intro o₂ h₂
    cases h₂
    rfl
  | fuelOut v r s =>
    intro o₂ h₂
    cases h₂
    rfl
  | arrOk h ih =>
    intro o₂ h₂
    cases h₂ with
    | arrOk h' => cases ih h'; rfl
    | arrErr h' => cases ih h'
  | arrErr h ih =>
    intro o₂ h₂
    cases h₂ with
    | arrOk h' => cases ih h'
    | arrErr h' => cases ih h'; rfl
  | recConsErrL h ih =>
    intro o₂ h₂
    cases h₂ with
    | recConsErrL h' => cases ih h'; rfl
    | recConsErrR h' h'' => cases ih h'
    | recConsOk h' h'' => cases ih h'
  | recConsErrR h hr ih ihr =>
    intro o₂ h₂
    cases h₂ with
    | recConsErrL h' => cases ih h'
    | recConsErrR h' h'' => cases ih h'; cases ihr h''; rfl
    | recConsOk h' h'' => cases ih h'; cases ihr h''
  | recConsOk h hr ih ihr =>
    intro o₂ h₂
    cases h₂ with
    | recConsErrL h' => cases ih h'
    | recConsErrR h' h'' => cases ih h'; cases ihr h''
    | recConsOk h' h'' => cases ih h'; cases ihr h''; rfl
  | namedVisited hmem =>
    intro o₂ h₂
    cases h₂ with
    | namedVisited h' => rfl
    | namedExternal h' hl => exact absurd hmem h'
    | namedBodyErr h' hl hb => exact absurd hmem h'
    | namedRegErr h' hl hb hreg => exact absurd hmem h'
    | namedOk h' hl hb hreg => exact absurd hmem h'
  | namedExternal hmem hl =>
    intro o₂ h₂
    cases h₂ with
    | namedVisited h' => exact absurd h' hmem
    | namedExternal h' hl' => rfl
    | namedBodyErr h' hl' hb => rw [hl] at hl'; cases hl'
    | namedRegErr h' hl' hb hreg => rw [hl] at hl'; cases hl'
    | namedOk h' hl' hb hreg => rw [hl] at hl'; cases hl'
  | namedBodyErr hmem hl hb ih =>
    intro o₂ h₂
    cases h₂ with
    | namedVisited h' => exact absurd h' hmem
    | namedExternal h' hl' => rw [hl] at hl'; cases hl'
    | namedBodyErr h' hl' hb' =>
      rw [hl] at hl'
      cases hl'
      cases ih hb'
      rfl
    | namedRegErr h' hl' hb' hreg =>
      rw [hl] at hl'
      cases hl'
      cases ih hb'
    | namedOk h' hl' hb' hreg =>
      rw [hl] at hl'
      cases hl'
      cases ih hb'
  | namedRegErr hmem hl hb hreg ih =>
    intro o₂ h₂
    cases h₂ with
    | namedVisited h' => exact absurd h' hmem
    | namedExternal h' hl' => rw [hl] at hl'; cases hl'
    | namedBodyErr h' hl' hb' =>
      rw [hl] at hl'
      cases hl'
      cases ih hb'
    | namedRegErr h' hl' hb' hreg' =>
      rw [hl] at hl'
      cases hl'
      cases ih hb'
      rw [hreg] at hreg'
      cases hreg'
      rfl
    | namedOk h' hl' hb' hreg' =>
      rw [hl] at hl'
      cases hl'
      cases ih hb'
      rw [hreg] at hreg'
      cases hreg'
  | namedOk hmem hl hb hreg ih =>
    intro o₂ h₂
    cases h₂ with
    | namedVisited h' => exact absurd h' hmem
    | namedExternal h' hl' => rw [hl] at hl'; cases hl'
    | namedBodyErr h' hl' hb' =>
      rw [hl] at hl'
      cases hl'
      cases ih hb'
    | namedRegErr h' hl' hb' hreg' =>
      rw [hl] at hl'
      cases hl'
      cases ih hb'
      rw [hreg] at hreg'
      cases hreg'
    | namedOk h' hl' hb' hreg' =>
      rw [hl] at hl'
      cases hl'
      cases ih hb'
      rw [hreg] at hreg'
      cases hreg'
      rfl

/-- Modelled from the spec: one complete Generator run (§4.2) on an
environment, a starting registry and a type name, producing outcome `out`. -/
def GeneratorRun (env : List (String × Shape)) (reg : Registry)
    (name : String) (out : GenOut) : Prop :=
  GenRel env (fuelFor env) (reg.map Prod.fst) reg (.named name) out

/-- C9.  The Generator is deterministic: two runs on the same type shape
environment, registry and naming input produce the same schema reference and
structurally identical definitions — the outcomes coincide (§4.2). -/
theorem generator_deterministic (env : List (String × Shape)) (reg : Registry)
    (name : String) (o₁ o₂ : GenOut) (h₁ : GeneratorRun env reg name o₁)
    (h₂ : GeneratorRun env reg name o₂) : o₁ = o₂ :=
  genRel_det env h₁ h₂

/-- Witness for C9: two concrete runs on the self-referential sample — one by
running `genShape`, one exhibited outcome — coincide. -/
theorem generator_deterministic_witness :
    generate (selfRefEnv "T" "next") [] "T" =
      .ok (.reference "T", ["T"], [("T", selfRefDef "T" "next")]) := by
  have h₁ : GeneratorRun (selfRefEnv "T" "next") [] "T"
      (generate (selfRefEnv "T" "next") [] "T") :=
    genRel_sound (selfRefEnv "T" "next") (fuelFor (selfRefEnv "T" "next"))
      ([].map Prod.fst) [] (.named "T")
  have heq : generate (selfRefEnv "T" "next") [] "T" =
      .ok (.reference "T", ["T"], [("T", selfRefDef "T" "next")]) := by decide
  have h₂ : GeneratorRun (selfRefEnv "T" "next") [] "T"
      (.ok (.reference "T", ["T"], [("T", selfRefDef "T" "next")])) := heq ▸ h₁
  exact generator_deterministic (selfRefEnv "T" "next") [] "T"
    (generate (selfRefEnv "T" "next") [] "T")
    (.ok (.reference "T", ["T"], [("T", selfRefDef "T" "next")])) h₁ h₂

/-- Modelled from the spec: `OpenApiSettings` (§6) — the settings record
threaded through the build; at minimum the path where the assembled document
is served. -/
structure OpenApiSettings where
  json_path : String
deriving DecidableEq, Repr

/-- The expansion of `openapi_get_routes_spec![settings: ...]`
(`rocket-okapi/src/lib.rs:240-247`): compute the spec with
`openapi_spec![...](&settings)`, compute the routes with
`openapi_routes![...](None, &settings)`, and return the pair.  The two
generated functions are code produced by the codegen crate, so they enter the
model as parameters. -/
def openapi_get_routes_spec {R : Type} (spec_fn : OpenApiSettings → Document)
    (routes_fn : Option Document → OpenApiSettings → List R)
    (settings : OpenApiSettings) : List R × Document :=
  (routes_fn none settings, spec_fn settings)

/-- The expansion of `openapi_get_spec![settings: ...]`
(`rocket-okapi/src/lib.rs:272-279`): exactly `openapi_spec![...](&settings)`. -/
def openapi_get_spec (spec_fn : OpenApiSettings → Document)
    (settings : OpenApiSettings) : Document :=
  spec_fn settings

/-- C10.  For every route list (abstracted as the generated `openapi_spec!` /
`openapi_routes!` functions) and every settings value, the spec component of
`openapi_get_routes_spec![settings: ...]` equals
`openapi_get_spec![settings: ...]`: both expand to the same
`openapi_spec![...](&settings)` call (`rocket-okapi/src/lib.rs:244,277`). -/
theorem routes_spec_component_eq_get_spec {R : Type}
    (spec_fn : OpenApiSettings → Document)
    (routes_fn : Option Document → OpenApiSettings → List R)
    (settings : OpenApiSettings) :
    (openapi_get_routes_spec spec_fn routes_fn settings).2 =
      openapi_get_spec spec_fn settings := rfl
